import Mathlib

/-!
Verification of the git-dashboard repository (src/git-dashboard.py).

The file shallowly embeds the program's logic:
* `get_time_ago` embeds the Python function of the same name (timestamps and
  elapsed seconds are modelled as rationals; Python floats never overflow the
  quantities involved in the claims).
* `get_git_repos` embeds the scanner.  The filesystem visible to one scan is
  modelled by `ScanEnv`: the (home-expanded) root either exists or not, and
  `os.scandir` yields a stream of entries in which an `Except.error` marks an
  `OSError` raised during enumeration (the Python code wraps the whole body in
  `try/except` and returns `[]` on any exception).
* `sort_column`, `refresh_data`, `update_list`, `open_repo` embed the
  `DarkRepoLauncher` methods; GUI-only effects (styles, row striping tags, the
  status label) are not part of the model.  Python's `list.sort` is a stable
  sort; with `reverse=True` it behaves as a stable sort under the reversed
  comparisons (ties keep their original relative order).  Any stable sort is
  extensionally unique, so it is embedded as `List.insertionSort` over the
  corresponding total preorder.
-/

namespace GitDashboard

/-! ### Strings: Python `str.lower` and the `in` containment test -/

/-- Python `str.lower()`, character by character (ASCII case mapping; the
claims only involve ASCII names). -/
def pyLower (s : String) : String :=
  String.mk (s.data.map Char.toLower)

/-- Bool test: `n` is a prefix of `h` (character lists). -/
def listIsPrefixOf : List Char → List Char → Bool
  | [], _ => true
  | _ :: _, [] => false
  | a :: as, b :: bs => a == b && listIsPrefixOf as bs

/-- Bool test: `n` occurs contiguously inside `h` (character lists); this is
Python's `n in h` on strings. -/
def listContainsSub (n : List Char) : List Char → Bool
  | [] => listIsPrefixOf n []
  | b :: bs => listIsPrefixOf n (b :: bs) || listContainsSub n bs

/-- Python `needle in hay` for strings. -/
def pyContains (needle hay : String) : Bool :=
  listContainsSub needle.data hay.data

/-- Substring containment as a proposition: `hay = p ++ needle ++ q`. -/
def ContainsSub (needle hay : String) : Prop :=
  ∃ p q : String, hay = p ++ needle ++ q

/-! ### `get_time_ago` -/

/-- Python `int()` applied to a real number: truncation toward zero. -/
def pyInt (q : ℚ) : ℤ :=
  if 0 ≤ q then ⌊q⌋ else -⌊-q⌋

/-- Embeds `get_time_ago` from src/git-dashboard.py.  `now` is the value of
`datetime.now()` and `ts` the argument, both in seconds;
`s = (datetime.now() - datetime.fromtimestamp(timestamp)).total_seconds()`.
Python's `s // k` is floor division and `int` truncates, hence `⌊s / k⌋`
and `pyInt s`. -/
def get_time_ago (now ts : ℚ) : String :=
  if ts = 0 then "Never"
  else
    let s := now - ts
    if s < 60 then toString (pyInt s) ++ "s ago"
    else if s < 3600 then toString ⌊s / 60⌋ ++ "m ago"
    else if s < 86400 then toString ⌊s / 3600⌋ ++ "h ago"
    else toString ⌊s / 86400⌋ ++ "d ago"

/-! ### `get_git_repos` and its filesystem model -/

/-- What `os.stat` reports about the object at `<child>/.git`, when that path
exists.  The Python code tests the path only with `os.path.exists`, which is
true for any filesystem object; `isDirG` records whether the object is itself
a directory (needed to state claims, ignored by the code). -/
structure GitMeta where
  isDirG : Bool
  mtimeG : ℚ
  commitEditmsg : Option ℚ
deriving DecidableEq

/-- One entry yielded by `os.scandir` on the root: its `name`, `path`,
`is_dir()` flag, and the stat of `<path>/.git` when that path exists. -/
structure Child where
  name : String
  path : String
  isDirE : Bool
  git : Option GitMeta
deriving DecidableEq

/-- The filesystem as one scan observes it: whether the expanded root path
exists, and the `os.scandir` stream, in which `Except.error` marks an
`OSError` raised at that point of the enumeration. -/
structure ScanEnv where
  rootExists : Bool
  listing : List (Except Unit Child)

/-- One element of the `repos` list built by `get_git_repos`. -/
structure Repo where
  name : String
  path : String
  mtime : ℚ
  time_ago : String
deriving DecidableEq

/-- The dict appended for a qualifying entry: `mtime` is
`getmtime(msg_file) if exists(msg_file) else getmtime(git_dir)`. -/
def repoOfChild (now : ℚ) (c : Child) (g : GitMeta) : Repo :=
  let mtime : ℚ :=
    match g.commitEditmsg with
    | some m => m
    | none => g.mtimeG
  { name := c.name, path := c.path, mtime := mtime,
    time_ago := get_time_ago now mtime }

/-- The `for entry in entries` loop; an `Except.error` in the stream raises,
aborting the whole loop (the partial `repos` list is discarded by the
`except` handler in `get_git_repos`). -/
def scanLoop (now : ℚ) : List (Except Unit Child) → Except Unit (List Repo)
  | [] => Except.ok []
  | Except.error e :: _ => Except.error e
  | Except.ok c :: rest =>
    match scanLoop now rest with
    | Except.error e => Except.error e
    | Except.ok tail =>
      if c.isDirE then
        match c.git with
        | some g => Except.ok (repoOfChild now c g :: tail)
        | none => Except.ok tail
      else Except.ok tail

/-- Embeds `get_git_repos`: returns `[]` when the expanded path does not
exist, and the `except Exception` handler turns any raised error into `[]`.
The model is a total function: a scan never raises. -/
def get_git_repos (now : ℚ) (env : ScanEnv) : List Repo :=
  if env.rootExists then
    match scanLoop now env.listing with
    | Except.ok repos => repos
    | Except.error _ => []
  else []

/-! ### The launcher's sort / filter / launch logic -/

/-- The two sortable columns of the table (`"Name"`, `"Last Commit"`). -/
inductive Col
  | name
  | lastCommit
deriving DecidableEq

/-- The other column. -/
def otherCol : Col → Col
  | Col.name => Col.lastCommit
  | Col.lastCommit => Col.name

/-- Python's `<=` on strings: lexicographic comparison of code points,
a proper prefix comparing below.  Defined on character lists. -/
def listLexLe : List Char → List Char → Bool
  | [], _ => true
  | _ :: _, [] => false
  | a :: as, b :: bs =>
    if a.toNat < b.toNat then true
    else if a.toNat = b.toNat then listLexLe as bs
    else false

theorem listLexLe_refl (l : List Char) : listLexLe l l = true := by
  induction l with
  | nil => rfl
  | cons a as ih => simp [listLexLe, ih]

theorem listLexLe_total (l₁ l₂ : List Char) :
    listLexLe l₁ l₂ = true ∨ listLexLe l₂ l₁ = true := by
  induction l₁ generalizing l₂ with
  | nil => exact Or.inl rfl
  | cons a as ih =>
    cases l₂ with
    | nil => exact Or.inr rfl
    | cons b bs =>
      rcases Nat.lt_trichotomy a.toNat b.toNat with h | h | h
      · exact Or.inl (by simp only [listLexLe]; rw [if_pos h])
      · rcases ih bs with h' | h'
        · exact Or.inl
            (by simp only [listLexLe]; rw [if_neg (by omega), if_pos h]; exact h')
        · exact Or.inr
            (by simp only [listLexLe]; rw [if_neg (by omega), if_pos h.symm]; exact h')
      · exact Or.inr (by simp only [listLexLe]; rw [if_pos h])

theorem listLexLe_trans {l₁ l₂ l₃ : List Char}
    (h₁ : listLexLe l₁ l₂ = true) (h₂ : listLexLe l₂ l₃ = true) :
    listLexLe l₁ l₃ = true := by
  induction l₁ generalizing l₂ l₃ with
  | nil => rfl
  | cons a as ih =>
    cases l₂ with
    | nil => exact absurd h₁ (by simp [listLexLe])
    | cons b bs =>
      cases l₃ with
      | nil => exact absurd h₂ (by simp [listLexLe])
      | cons c cs =>
        simp only [listLexLe] at h₁ h₂ ⊢
        by_cases hab : a.toNat < b.toNat
        · by_cases hbc : b.toNat < c.toNat
          · rw [if_pos (by omega)]
          · rw [if_neg hbc] at h₂
            by_cases hbc2 : b.toNat = c.toNat
            · rw [if_pos (by omega)]
            · rw [if_neg hbc2] at h₂; exact absurd h₂ (by simp)
        · rw [if_neg hab] at h₁
          by_cases hab2 : a.toNat = b.toNat
          · rw [if_pos hab2] at h₁
            by_cases hbc : b.toNat < c.toNat
            · rw [if_pos (by omega)]
            · rw [if_neg hbc] at h₂
              by_cases hbc2 : b.toNat = c.toNat
              · rw [if_pos hbc2] at h₂
                rw [if_neg (by omega), if_pos (by omega)]
                exact ih h₁ h₂
              · rw [if_neg hbc2] at h₂; exact absurd h₂ (by simp)
          · rw [if_neg hab2] at h₁; exact absurd h₁ (by simp)

theorem listLexLe_antisymm {l₁ l₂ : List Char}
    (h₁ : listLexLe l₁ l₂ = true) (h₂ : listLexLe l₂ l₁ = true) : l₁ = l₂ := by
  induction l₁ generalizing l₂ with
  | nil =>
    cases l₂ with
    | nil => rfl
    | cons b bs => exact absurd h₂ (by simp [listLexLe])
  | cons a as ih =>
    cases l₂ with
    | nil => exact absurd h₁ (by simp [listLexLe])
    | cons b bs =>
      simp only [listLexLe] at h₁ h₂
      by_cases hab : a.toNat < b.toNat
      · rw [if_neg (by omega), if_neg (by omega)] at h₂
        exact absurd h₂ (by simp)
      · rw [if_neg hab] at h₁
        by_cases hab2 : a.toNat = b.toNat
        · rw [if_pos hab2] at h₁
          rw [if_neg (by omega), if_pos (by omega)] at h₂
          have hab3 : a = b := Char.ext (UInt32.ext (by simpa using hab2))
          rw [hab3, ih h₁ h₂]
        · rw [if_neg hab2] at h₁; exact absurd h₁ (by simp)

/-- The non-strict order on the sort key of a column:
`x["name"].lower()` compared lexicographically for `"Name"`,
`x["mtime"]` numerically for `"Last Commit"`. -/
def keyLe (col : Col) (a b : Repo) : Prop :=
  match col with
  | Col.name => listLexLe (pyLower a.name).data (pyLower b.name).data = true
  | Col.lastCommit => a.mtime ≤ b.mtime

instance (col : Col) : DecidableRel (keyLe col) := by
  intro a b
  cases col <;> simp only [keyLe] <;> infer_instance

/-- The total preorder `list.sort(key=..., reverse=rev)` sorts by:
with `reverse=True` Python sorts as if every comparison were reversed,
while keeping equal-key elements in their original relative order. -/
def sortRel (col : Col) (rev : Bool) (a b : Repo) : Prop :=
  if rev then keyLe col b a else keyLe col a b

instance (col : Col) (rev : Bool) : DecidableRel (sortRel col rev) := by
  intro a b
  unfold sortRel
  split <;> infer_instance

theorem keyLe_total (col : Col) (a b : Repo) : keyLe col a b ∨ keyLe col b a := by
  cases col <;> simp only [keyLe]
  · exact listLexLe_total _ _
  · exact le_total _ _

theorem keyLe_trans {col : Col} {a b c : Repo}
    (h : keyLe col a b) (h' : keyLe col b c) : keyLe col a c := by
  cases col <;> simp only [keyLe] at h h' ⊢
  · exact listLexLe_trans h h'
  · exact le_trans h h'

instance (col : Col) (rev : Bool) : IsTotal Repo (sortRel col rev) := by
  constructor
  intro a b
  unfold sortRel
  split
  · exact (keyLe_total col b a).symm.imp id id |>.symm
  · exact keyLe_total col a b

instance (col : Col) (rev : Bool) : IsTrans Repo (sortRel col rev) := by
  constructor
  intro a b c
  unfold sortRel
  split
  · exact fun h h' => keyLe_trans h' h
  · exact fun h h' => keyLe_trans h h'

/-- Python's `self.all_repos.sort(key=..., reverse=reverse)`: a stable sort
under `sortRel col rev`.  Stable sorts are extensionally unique, so
`List.insertionSort` (which is stable) is a faithful embedding. -/
def pySort (col : Col) (rev : Bool) (l : List Repo) : List Repo :=
  List.insertionSort (sortRel col rev) l

/-- The rows and the `displayed_paths` list that `update_list` writes. -/
structure Display where
  rows : List (String × String)
  displayed_paths : List String
deriving DecidableEq

/-- The filter test of `update_list`:
`search_term in repo["name"].lower()` where
`search_term = self.search_var.get().lower()`. -/
def matchesSearch (search : String) (r : Repo) : Bool :=
  pyContains (pyLower search) (pyLower r.name)

/-- Embeds `update_list`: one pass over `self.all_repos` keeping the repos
whose lowered name contains the lowered search term, inserting a row
`("  " + name, time_ago)` per kept repo and recording its path in
`displayed_paths`.  (Row striping tags and the status label are GUI-only.) -/
def update_list (search : String) (repos : List Repo) : Display :=
  let kept := repos.filter (fun r => matchesSearch search r)
  { rows := kept.map (fun r => ("  " ++ r.name, r.time_ago)),
    displayed_paths := kept.map Repo.path }

/-- The mutable state of `DarkRepoLauncher` relevant to the claims:
the per-column `sort_reverse` flags, the `all_repos` list (sorted in
place), the search box contents, and the display produced by the last
`update_list` call.  `lastCol`/`lastRev` are ghost fields recording which
sort was applied last; the Python object has no such attributes and no
definition reads them. -/
structure AppState where
  sort_reverse_name : Bool
  sort_reverse_lc : Bool
  all_repos : List Repo
  search : String
  display : Display
  lastCol : Col
  lastRev : Bool
deriving DecidableEq

/-- `self.sort_reverse[col]`. -/
def getFlag (st : AppState) : Col → Bool
  | Col.name => st.sort_reverse_name
  | Col.lastCommit => st.sort_reverse_lc

/-- `self.sort_reverse[col] = b`. -/
def setFlag (st : AppState) (col : Col) (b : Bool) : AppState :=
  match col with
  | Col.name => { st with sort_reverse_name := b }
  | Col.lastCommit => { st with sort_reverse_lc := b }

/-- Re-run `update_list` on the current state. -/
def doUpdateList (st : AppState) : AppState :=
  { st with display := update_list st.search st.all_repos }

/-- Embeds `sort_column(col, toggle)`: read the column's current direction,
stably sort `all_repos` in place with it, flip the flag when `toggle`,
then call `update_list`. -/
def sort_column (col : Col) (toggle : Bool) (st : AppState) : AppState :=
  let reverse := getFlag st col
  let st1 := { st with all_repos := pySort col reverse st.all_repos,
                       lastCol := col, lastRev := reverse }
  let st2 := if toggle then setFlag st1 col (!reverse) else st1
  doUpdateList st2

/-- Embeds `refresh_data`: rescan (the scan result is the `snapshot`
argument), pick `"Last Commit"` when its flag is set else `"Name"`, and
sort without toggling. -/
def refresh_data (snapshot : List Repo) (st : AppState) : AppState :=
  let st1 := { st with all_repos := snapshot }
  let col := if st1.sort_reverse_lc then Col.lastCommit else Col.name
  sort_column col false st1

/-- A keystroke in the search box: the `trace` callback runs `update_list`. -/
def set_search (s : String) (st : AppState) : AppState :=
  doUpdateList { st with search := s }

/-- The state after `__init__`: `sort_reverse = {"Name": False,
"Last Commit": True}`, empty search box, then `refresh_data()`. -/
def initState (snapshot : List Repo) : AppState :=
  refresh_data snapshot
    { sort_reverse_name := false, sort_reverse_lc := true,
      all_repos := [], search := "",
      display := { rows := [], displayed_paths := [] },
      lastCol := Col.name, lastRev := false }

/-- The states reachable by the user: initial state, header clicks
(`sort_column` with `toggle=True`), refreshes, and search edits.  The scan
outcome is fixed at `snapshot` for the session. -/
inductive Reach (snapshot : List Repo) : AppState → Prop
  | init : Reach snapshot (initState snapshot)
  | click (col : Col) {st : AppState} :
      Reach snapshot st → Reach snapshot (sort_column col true st)
  | refresh {st : AppState} :
      Reach snapshot st → Reach snapshot (refresh_data snapshot st)
  | search (s : String) {st : AppState} :
      Reach snapshot st → Reach snapshot (set_search s st)

/-- One spawned process: `subprocess.Popen(argv, stdout=DEVNULL,
stderr=DEVNULL)`.  `argv` is an argument vector, not a shell line: `Popen`
with a list and the default `shell=False` performs no shell
interpretation. -/
structure Spawn where
  argv : List String
deriving DecidableEq

/-- Embeds `open_repo` for a selected row at position `index`:
`self.tree.index(selection[0])` is the row's ordinal position, and exactly
one process is spawned with `[EDITOR_COMMAND, self.displayed_paths[index]]`.
`none` models the no-selection case / an out-of-range index. -/
def open_repo (editor : String) (st : AppState) (index : Nat) : Option Spawn :=
  match st.display.displayed_paths[index]? with
  | some p => some { argv := [editor, p] }
  | none => none

/-! ### Lemmas about substring containment -/

theorem listIsPrefixOf_iff (n : List Char) :
    ∀ h : List Char, (listIsPrefixOf n h = true ↔ ∃ t, h = n ++ t) := by
  induction n with
  | nil =>
    intro h
    simp [listIsPrefixOf]
  | cons a as ih =>
    intro h
    cases h with
    | nil =>
      simp [listIsPrefixOf]
    | cons b bs =>
      simp only [listIsPrefixOf, Bool.and_eq_true, beq_iff_eq, ih bs]
      constructor
      · rintro ⟨rfl, t, rfl⟩
        exact ⟨t, rfl⟩
      · rintro ⟨t, ht⟩
        rw [List.cons_append] at ht
        injection ht with h1 h2
        exact ⟨h1.symm, t, h2⟩

theorem listContainsSub_iff (n : List Char) :
    ∀ h : List Char, (listContainsSub n h = true ↔ ∃ p q, h = p ++ n ++ q) := by
  intro h
  induction h with
  | nil =>
    simp only [listContainsSub, listIsPrefixOf_iff]
    constructor
    · rintro ⟨t, ht⟩
      exact ⟨[], t, by simpa using ht⟩
    · rintro ⟨p, q, hpq⟩
      rw [List.append_assoc] at hpq
      obtain ⟨hp, hnq⟩ := List.append_eq_nil.mp hpq.symm
      obtain ⟨hn, hq⟩ := List.append_eq_nil.mp hnq
      exact ⟨[], by simp [hn]⟩
  | cons b bs ih =>
    simp only [listContainsSub, Bool.or_eq_true, listIsPrefixOf_iff, ih]
    constructor
    · rintro (⟨t, ht⟩ | ⟨p, q, hpq⟩)
      · exact ⟨[], t, by simpa using ht⟩
      · exact ⟨b :: p, q, by simp [hpq]⟩
    · rintro ⟨p, q, hpq⟩
      cases p with
      | nil =>
        exact Or.inl ⟨q, by simpa using hpq⟩
      | cons c p =>
        rw [List.cons_append, List.cons_append] at hpq
        injection hpq with h1 h2
        exact Or.inr ⟨p, q, h2⟩

theorem pyContains_iff (needle hay : String) :
    pyContains needle hay = true ↔ ContainsSub needle hay := by
  unfold pyContains ContainsSub
  rw [listContainsSub_iff]
  constructor
  · rintro ⟨p, q, hpq⟩
    refine ⟨String.mk p, String.mk q, ?_⟩
    apply String.ext
    simpa [String.data_append] using hpq
  · rintro ⟨p, q, rfl⟩
    exact ⟨p.data, q.data, by simp [String.data_append]⟩

theorem pyContains_empty_left (hay : String) : pyContains ("") hay = true :=
  (pyContains_iff _ hay).mpr ⟨"", hay, by simp⟩

/-! ### Characterization of one successful scan -/

/-- The membership test of the scanner: `entry.is_dir() and
os.path.exists(git_dir)`, and the dict built for a qualifying entry. -/
def scanHit (now : ℚ) (c : Child) : Option Repo :=
  match c.git with
  | some g => if c.isDirE then some (repoOfChild now c g) else none
  | none => none

theorem scanLoop_ok (now : ℚ) (cs : List Child) :
    scanLoop now (cs.map Except.ok) = Except.ok (cs.filterMap (scanHit now)) := by
  induction cs with
  | nil => rfl
  | cons c cs ih =>
    simp only [List.map_cons, scanLoop, ih, List.filterMap_cons]
    cases hg : c.git <;> cases hd : c.isDirE <;> simp [scanHit, hg, hd]

theorem scanLoop_error (now : ℚ) (l : List (Except Unit Child))
    (h : Except.error () ∈ l) : scanLoop now l = Except.error () := by
  induction l with
  | nil => cases h
  | cons x rest ih =>
    cases x with
    | error e => rfl
    | ok c =>
      have hrest : Except.error () ∈ rest := by
        rcases List.mem_cons.mp h with h' | h'
        · cases h'
        · exact h'
      simp only [scanLoop, ih hrest]

theorem get_git_repos_ok (now : ℚ) (cs : List Child) :
    get_git_repos now { rootExists := true, listing := cs.map Except.ok }
      = cs.filterMap (scanHit now) := by
  simp [get_git_repos, scanLoop_ok]

theorem scanHit_eq_some {now : ℚ} {c : Child} {r : Repo}
    (h : scanHit now c = some r) :
    c.isDirE = true ∧ ∃ g, c.git = some g ∧ r = repoOfChild now c g := by
  unfold scanHit at h
  cases hg : c.git with
  | none => rw [hg] at h; cases h
  | some g =>
    rw [hg] at h
    cases hd : c.isDirE with
    | false => rw [hd] at h; simp at h
    | true =>
      rw [hd] at h
      simp only [if_true] at h
      exact ⟨rfl, g, rfl, (Option.some.injEq _ _ ▸ h).symm⟩

/-! ### Claim C1 -/

/-- The claim of C1 as stated: a child appears in the scan result if and
only if it is a directory that directly contains a subdirectory (a
directory, not a file) named `.git`. -/
def ClaimC1 : Prop :=
  ∀ (now : ℚ) (env : ScanEnv) (c : Child), Except.ok c ∈ env.listing →
    ((∃ r ∈ get_git_repos now env, r.name = c.name) ↔
      (c.isDirE = true ∧ ∃ g, c.git = some g ∧ g.isDirG = true))

/-- A child directory whose `.git` is a regular file (as for git worktrees
and submodules), under an existing, readable root. -/
def envDotGitFile : ScanEnv where
  rootExists := true
  listing := [Except.ok
    { name := "worktree", path := "/base/worktree", isDirE := true,
      git := some { isDirG := false, mtimeG := 0, commitEditmsg := none } }]

/-- C1 is false as stated: `get_git_repos` tests `.git` with
`os.path.exists`, which is true for a regular file named `.git` as well,
so the `worktree` child of `envDotGitFile` appears in the scan result even
though it contains no sub*directory* named `.git`. -/
theorem scan_requires_git_directory_counterexample : ¬ ClaimC1 := by
  intro h
  have hmem : (∃ r ∈ get_git_repos 0 envDotGitFile, r.name = "worktree") := by
    decide
  have h2 := (h 0 envDotGitFile
    { name := "worktree", path := "/base/worktree", isDirE := true,
      git := some { isDirG := false, mtimeG := 0, commitEditmsg := none } }
    (List.mem_singleton.mpr rfl)).mp hmem
  rcases h2 with ⟨-, g, hg, hdir⟩
  rw [Option.some.injEq] at hg
  rw [← hg] at hdir
  cases hdir

/-- C1 amended: over an existing root whose enumeration raises no error,
a child appears in the scan result (by its unique name) if and only if it
is a directory that directly contains an entry named `.git` of any file
type (directory or file); only immediate children are consulted. -/
theorem scan_membership_iff (now : ℚ) (cs : List Child) (c : Child)
    (hc : c ∈ cs) (hnames : (cs.map Child.name).Nodup) :
    (∃ r ∈ get_git_repos now { rootExists := true, listing := cs.map Except.ok },
        r.name = c.name) ↔
      (c.isDirE = true ∧ c.git.isSome = true) := by
  rw [get_git_repos_ok]
  constructor
  · rintro ⟨r, hr, hname⟩
    obtain ⟨c', hc', hhit⟩ := List.mem_filterMap.mp hr
    obtain ⟨hdir, g, hg, rfl⟩ := scanHit_eq_some hhit
    have hnc : c'.name = c.name := hname
    have : c' = c := List.inj_on_of_nodup_map hnames hc' hc hnc
    subst this
    exact ⟨hdir, by rw [hg]; rfl⟩
  · rintro ⟨hdir, hsome⟩
    obtain ⟨g, hg⟩ := Option.isSome_iff_exists.mp hsome
    refine ⟨repoOfChild now c g, List.mem_filterMap.mpr ⟨c, hc, ?_⟩, rfl⟩
    simp [scanHit, hg, hdir]

/-- A qualifying child for the witness of the amended C1. -/
def childProj : Child where
  name := "proj"
  path := "/base/proj"
  isDirE := true
  git := some { isDirG := true, mtimeG := 0, commitEditmsg := none }

theorem scan_membership_iff_witness :
    childProj ∈ [childProj] ∧
      ((∃ r ∈ get_git_repos 0
            { rootExists := true, listing := [childProj].map Except.ok },
          r.name = childProj.name) ↔
        (childProj.isDirE = true ∧ childProj.git.isSome = true)) :=
  ⟨by decide, scan_membership_iff 0 [childProj] childProj (by decide) (by decide)⟩

/-! ### Claim C2 -/

/-- C2: for every entry produced by a successful scan, the recorded
`mtime` is the `COMMIT_EDITMSG` file's modification time when that file
exists inside the `.git` entry, and otherwise the `.git` entry's own
modification time. -/
theorem scan_last_activity (now : ℚ) (cs : List Child) :
    ∀ r ∈ get_git_repos now { rootExists := true, listing := cs.map Except.ok },
      ∃ c g, c ∈ cs ∧ c.git = some g ∧ r = repoOfChild now c g ∧
        r.mtime = (match g.commitEditmsg with
                   | some m => m
                   | none => g.mtimeG) := by
  intro r hr
  rw [get_git_repos_ok] at hr
  obtain ⟨c, hc, hhit⟩ := List.mem_filterMap.mp hr
  obtain ⟨hdir, g, hg, rfl⟩ := scanHit_eq_some hhit
  exact ⟨c, g, hc, hg, rfl, rfl⟩

/-- A child whose `.git` contains `COMMIT_EDITMSG` (modification time 7)
while the `.git` directory itself has modification time 3. -/
def childWithMsg : Child where
  name := "repo1"
  path := "/base/repo1"
  isDirE := true
  git := some { isDirG := true, mtimeG := 3, commitEditmsg := some 7 }

/-- The scan result for `childWithMsg`; its recorded `mtime` is 7, the
`COMMIT_EDITMSG` modification time, not 3. -/
def repoWithMsg : Repo :=
  repoOfChild 0 childWithMsg { isDirG := true, mtimeG := 3, commitEditmsg := some 7 }

theorem scan_last_activity_witness :
    repoWithMsg ∈ get_git_repos 0
        { rootExists := true, listing := [childWithMsg].map Except.ok } ∧
    ∃ c g, c ∈ [childWithMsg] ∧ c.git = some g ∧
      repoWithMsg = repoOfChild 0 c g ∧
      repoWithMsg.mtime = (match g.commitEditmsg with
                           | some m => m
                           | none => g.mtimeG) := by
  have hmem : repoWithMsg ∈ get_git_repos 0
      { rootExists := true, listing := [childWithMsg].map Except.ok } := by
    rw [show get_git_repos 0
        { rootExists := true, listing := [childWithMsg].map Except.ok }
      = [repoWithMsg] from rfl]
    exact List.mem_singleton.mpr rfl
  exact ⟨hmem, scan_last_activity 0 [childWithMsg] repoWithMsg hmem⟩

/-! ### Claim C3 -/

/-- C3: a scan never raises; a missing (home-expanded) root path yields
`[]`, and an enumeration error at any point of the scan discards all
partial results and yields `[]`.  In the embedding `get_git_repos` is a
total function into `List Repo`: every exception of the Python body is a
value that the `except` handler maps to `[]`. -/
theorem scan_safe_default (now : ℚ) (env : ScanEnv)
    (h : env.rootExists = false ∨ Except.error () ∈ env.listing) :
    get_git_repos now env = [] := by
  rcases h with h | h
  · simp [get_git_repos, h]
  · unfold get_git_repos
    rw [scanLoop_error now env.listing h]
    simp

theorem scan_safe_default_witness :
    get_git_repos 0 { rootExists := false, listing := [] } = [] ∧
    get_git_repos 0
        { rootExists := true,
          listing := [Except.ok childProj, Except.error ()] } = [] :=
  ⟨scan_safe_default 0 _ (Or.inl rfl),
   scan_safe_default 0 _
     (Or.inr (List.mem_cons.mpr (Or.inr (List.mem_singleton.mpr rfl))))⟩

/-! ### Claim C4 -/

/-- C4: `get_time_ago` maps the zero sentinel to `"Never"`, and for a
nonzero timestamp with nonnegative elapsed seconds `s = now - ts` picks
the first matching bucket by strict less-than on the upper bound, with the
floor of the quotient: seconds, minutes, hours, days.  (The code uses
Python `int()` truncation in the seconds bucket and floor division in the
others; for `0 ≤ s` truncation and floor agree.) -/
theorem format_age_buckets (now ts : ℚ) (h0 : ts ≠ 0) (h1 : 0 ≤ now - ts) :
    get_time_ago now 0 = "Never" ∧
    get_time_ago now ts =
      (if now - ts < 60 then toString ⌊now - ts⌋ ++ "s ago"
       else if now - ts < 3600 then toString ⌊(now - ts) / 60⌋ ++ "m ago"
       else if now - ts < 86400 then toString ⌊(now - ts) / 3600⌋ ++ "h ago"
       else toString ⌊(now - ts) / 86400⌋ ++ "d ago") := by
  constructor
  · simp [get_time_ago]
  · have hint : pyInt (now - ts) = ⌊now - ts⌋ := by
      unfold pyInt
      rw [if_pos h1]
    simp only [get_time_ago, if_neg h0, hint]

theorem format_age_buckets_witness :
    (90 : ℚ) ≠ 0 ∧ (0 : ℚ) ≤ 180 - 90 ∧
    (get_time_ago 180 0 = "Never" ∧
     get_time_ago 180 90 =
       (if (180 : ℚ) - 90 < 60 then toString ⌊(180 : ℚ) - 90⌋ ++ "s ago"
        else if (180 : ℚ) - 90 < 3600 then
          toString ⌊((180 : ℚ) - 90) / 60⌋ ++ "m ago"
        else if (180 : ℚ) - 90 < 86400 then
          toString ⌊((180 : ℚ) - 90) / 3600⌋ ++ "h ago"
        else toString ⌊((180 : ℚ) - 90) / 86400⌋ ++ "d ago")) :=
  ⟨by norm_num, by norm_num, format_age_buckets 180 90 (by norm_num) (by norm_num)⟩

/-! ### Claim C5 -/

/-- C5: the projection keeps exactly the entries whose name contains the
search term as a case-insensitive substring (containment of a contiguous
substring, not prefix or fuzzy matching), and the empty search term keeps
every entry. -/
theorem update_list_keeps_substring_matches (search : String) (repos : List Repo) :
    (update_list search repos).displayed_paths
        = (repos.filter (fun r => matchesSearch search r)).map Repo.path ∧
    (∀ r : Repo, matchesSearch search r = true ↔
        ContainsSub (pyLower search) (pyLower r.name)) ∧
    (update_list ("") repos).displayed_paths = repos.map Repo.path := by
  refine ⟨rfl, fun r => pyContains_iff _ _, ?_⟩
  show ((repos.filter fun r => matchesSearch ("") r).map Repo.path) = repos.map Repo.path
  rw [List.filter_eq_self.mpr fun r _ => pyContains_empty_left (pyLower r.name)]

/-! ### Stability of the embedded sort -/

/-- The equal-key class of `x` for a column, as a Boolean predicate. -/
def clsb (col : Col) (x y : Repo) : Bool :=
  decide (keyLe col x y) && decide (keyLe col y x)

theorem clsb_eq_true {col : Col} {x y : Repo} :
    clsb col x y = true ↔ keyLe col x y ∧ keyLe col y x := by
  simp [clsb]

theorem cls_of_sortRel (col : Col) (rev : Bool) (x : Repo) :
    (fun y => decide (sortRel col rev x y) && decide (sortRel col rev y x))
      = clsb col x := by
  funext y
  unfold clsb
  cases rev with
  | false =>
    rw [decide_eq_decide.mpr (show sortRel col false x y ↔ keyLe col x y from by
          unfold sortRel; simp),
        decide_eq_decide.mpr (show sortRel col false y x ↔ keyLe col y x from by
          unfold sortRel; simp)]
  | true =>
    rw [decide_eq_decide.mpr (show sortRel col true x y ↔ keyLe col y x from by
          unfold sortRel; simp),
        decide_eq_decide.mpr (show sortRel col true y x ↔ keyLe col x y from by
          unfold sortRel; simp),
        Bool.and_comm]

theorem pairwise_filter_clsb (col : Col) (rev : Bool) (x : Repo) (l : List Repo) :
    (l.filter (clsb col x)).Pairwise (sortRel col rev) := by
  apply List.pairwise_of_forall_mem_list
  intro a ha b hb
  obtain ⟨-, hax⟩ := List.mem_filter.mp ha
  obtain ⟨-, hbx⟩ := List.mem_filter.mp hb
  obtain ⟨hxa, hax'⟩ := clsb_eq_true.mp hax
  obtain ⟨hxb, hbx'⟩ := clsb_eq_true.mp hbx
  unfold sortRel
  cases rev with
  | false => simpa using keyLe_trans hax' hxb
  | true => simpa using keyLe_trans hbx' hxa

/-- Stability of the embedded sort: the subsequence of entries lying in any
fixed equal-key class is untouched by sorting, i.e. ties keep their
original relative order. -/
theorem filter_clsb_pySort (col : Col) (rev : Bool) (x : Repo) (l : List Repo) :
    (pySort col rev l).filter (clsb col x) = l.filter (clsb col x) := by
  have hsub : List.Sublist (l.filter (clsb col x)) (pySort col rev l) :=
    List.sublist_insertionSort (pairwise_filter_clsb col rev x l)
      (List.filter_sublist l)
  have hidem : (l.filter (clsb col x)).filter (clsb col x) = l.filter (clsb col x) :=
    List.filter_eq_self.mpr fun a ha => (List.mem_filter.mp ha).2
  have h2 : List.Sublist (l.filter (clsb col x))
      ((pySort col rev l).filter (clsb col x)) := by
    have := hsub.filter (clsb col x)
    rwa [hidem] at this
  have hlen : ((pySort col rev l).filter (clsb col x)).length
      = (l.filter (clsb col x)).length :=
    ((List.perm_insertionSort (sortRel col rev) l).filter (clsb col x)).length_eq
  exact (h2.eq_of_length hlen.symm).symm

/-- A list sorted under a total preorder is determined by its equal-class
subsequences: two sorted permutations of each other with identical class
filters are equal. -/
theorem eq_of_sorted_perm_filter {R : Repo → Repo → Prop} [DecidableRel R]
    (htot : ∀ a b : Repo, R a b ∨ R b a) :
    ∀ {l₁ l₂ : List Repo}, l₁.Perm l₂ → l₁.Pairwise R → l₂.Pairwise R →
      (∀ x, l₁.filter (fun y => decide (R x y) && decide (R y x))
          = l₂.filter (fun y => decide (R x y) && decide (R y x))) →
      l₁ = l₂ := by
  intro l₁
  induction l₁ with
  | nil =>
    intro l₂ hperm _ _ _
    exact hperm.nil_eq
  | cons a t ih =>
    intro l₂ hperm hp₁ hp₂ hf
    cases l₂ with
    | nil =>
      have := hperm.length_eq
      simp at this
    | cons b t₂ =>
      have hRaa : R a a := (htot a a).elim id id
      have hab : a = b := by
        by_cases heq : a = b
        · exact heq
        · have hamem : a ∈ b :: t₂ := hperm.subset (List.mem_cons_self a t)
          have hbmem : b ∈ a :: t := hperm.symm.subset (List.mem_cons_self b t₂)
          have hRba : R b a :=
            List.rel_of_pairwise_cons hp₂
              ((List.mem_cons.mp hamem).resolve_left heq)
          have hRab : R a b :=
            List.rel_of_pairwise_cons hp₁
              ((List.mem_cons.mp hbmem).resolve_left fun h => heq h.symm)
          have hfa := hf a
          rw [List.filter_cons, List.filter_cons,
              if_pos (by simp [hRaa]), if_pos (by simp [hRab, hRba])] at hfa
          exact (List.cons.injEq _ _ _ _ ▸ hfa).1
      subst hab
      have htail : ∀ x, t.filter (fun y => decide (R x y) && decide (R y x))
          = t₂.filter (fun y => decide (R x y) && decide (R y x)) := by
        intro x
        have hfx := hf x
        rw [List.filter_cons, List.filter_cons] at hfx
        by_cases hpa : (decide (R x a) && decide (R a x)) = true
        · rw [if_pos hpa, if_pos hpa] at hfx
          exact (List.cons.injEq _ _ _ _ ▸ hfx).2
        · rwa [if_neg hpa, if_neg hpa] at hfx
      rw [ih hperm.cons_inv (List.Pairwise.of_cons hp₁)
        (List.Pairwise.of_cons hp₂) htail]

/-- Applying the in-place sort twice (in any directions) over the same
column is the same as applying only the second sort to the original list:
stable sorting preserves the relative order inside each tie class. -/
theorem pySort_pySort (col : Col) (r₁ r₂ : Bool) (l : List Repo) :
    pySort col r₂ (pySort col r₁ l) = pySort col r₂ l := by
  apply eq_of_sorted_perm_filter (R := sortRel col r₂) (fun a b => total_of _ a b)
  · exact (List.perm_insertionSort _ _).trans
      ((List.perm_insertionSort _ l).trans
        (List.perm_insertionSort (sortRel col r₂) l).symm)
  · exact List.sorted_insertionSort _ _
  · exact List.sorted_insertionSort _ _
  · intro x
    rw [cls_of_sortRel, filter_clsb_pySort, filter_clsb_pySort, filter_clsb_pySort]

/-! ### Claim C6 -/

/-- C6: for every snapshot and both directions of both columns, the sort
used by `sort_column` is a permutation of its input, ordered by the
column's key (lower-cased name lexicographically for `"Name"`, the raw
timestamp numerically for `"Last Commit"`, reversed when the direction
flag is set), and stable: the entries of any fixed equal-key class keep
their original relative order. -/
theorem pySort_sorts_stably (col : Col) (rev : Bool) (l : List Repo) :
    (pySort col rev l).Perm l ∧
    (pySort col rev l).Pairwise (sortRel col rev) ∧
    ∀ x, (pySort col rev l).filter (clsb col x) = l.filter (clsb col x) :=
  ⟨List.perm_insertionSort _ l, List.sorted_insertionSort _ l,
   fun x => filter_clsb_pySort col rev x l⟩

/-! ### Unfolding lemmas for the launcher state machine -/

theorem sort_column_spec (col : Col) (tog : Bool) (st : AppState) :
    (sort_column col tog st).all_repos = pySort col (getFlag st col) st.all_repos ∧
    (sort_column col tog st).lastCol = col ∧
    (sort_column col tog st).lastRev = getFlag st col ∧
    (sort_column col tog st).search = st.search ∧
    (sort_column col tog st).display
      = update_list st.search (pySort col (getFlag st col) st.all_repos) := by
  cases tog <;> cases col <;> exact ⟨rfl, rfl, rfl, rfl, rfl⟩

theorem getFlag_sort_column_self (col : Col) (st : AppState) :
    getFlag (sort_column col true st) col = !(getFlag st col) := by
  cases col <;> rfl

theorem getFlag_sort_column_other (col : Col) (st : AppState) :
    getFlag (sort_column col true st) (otherCol col) = getFlag st (otherCol col) := by
  cases col <;> rfl

theorem set_search_spec (s : String) (st : AppState) :
    (set_search s st).all_repos = st.all_repos ∧
    (set_search s st).lastCol = st.lastCol ∧
    (set_search s st).lastRev = st.lastRev ∧
    (set_search s st).search = s ∧
    (set_search s st).display = update_list s st.all_repos :=
  ⟨rfl, rfl, rfl, rfl, rfl⟩

/-- Every reachable state keeps `all_repos` a permutation of the scan
snapshot, sorted by the last sort applied, with the display derived from
the current search term and the current list. -/
theorem reach_invariant {snapshot : List Repo} {st : AppState}
    (h : Reach snapshot st) :
    st.all_repos.Perm snapshot ∧
    st.all_repos.Pairwise (sortRel st.lastCol st.lastRev) ∧
    st.display = update_list st.search st.all_repos := by
  induction h with
  | init =>
    obtain ⟨ha, hc, hr, hs, hd⟩ := sort_column_spec
      (if ({ sort_reverse_name := false, sort_reverse_lc := true,
             all_repos := snapshot, search := "",
             display := { rows := [], displayed_paths := [] },
             lastCol := Col.name, lastRev := false } : AppState).sort_reverse_lc
       then Col.lastCommit else Col.name) false
      { sort_reverse_name := false, sort_reverse_lc := true,
        all_repos := snapshot, search := "",
        display := { rows := [], displayed_paths := [] },
        lastCol := Col.name, lastRev := false }
    refine ⟨?_, ?_, ?_⟩
    · rw [show (initState snapshot).all_repos
          = pySort Col.lastCommit true snapshot from rfl]
      exact List.perm_insertionSort _ _
    · rw [show (initState snapshot).all_repos
          = pySort Col.lastCommit true snapshot from rfl,
        show (initState snapshot).lastCol = Col.lastCommit from rfl,
        show (initState snapshot).lastRev = true from rfl]
      exact List.sorted_insertionSort _ _
    · rfl
  | click col h ih =>
    obtain ⟨hperm, -, -⟩ := ih
    obtain ⟨ha, hc, hr, hs, hd⟩ := sort_column_spec col true _
    refine ⟨?_, ?_, ?_⟩
    · rw [ha]; exact (List.perm_insertionSort _ _).trans hperm
    · rw [ha, hc, hr]; exact List.sorted_insertionSort _ _
    · rw [hd, ha, hs]
  | refresh h ih =>
    rename_i st'
    obtain ⟨ha, hc, hr, hs, hd⟩ := sort_column_spec
      (if st'.sort_reverse_lc then Col.lastCommit else Col.name) false
      { st' with all_repos := snapshot }
    refine ⟨?_, ?_, ?_⟩
    · rw [show refresh_data snapshot st'
          = sort_column (if st'.sort_reverse_lc then Col.lastCommit else Col.name)
              false { st' with all_repos := snapshot } from rfl, ha]
      exact List.perm_insertionSort _ _
    · rw [show refresh_data snapshot st'
          = sort_column (if st'.sort_reverse_lc then Col.lastCommit else Col.name)
              false { st' with all_repos := snapshot } from rfl, ha, hc, hr]
      exact List.sorted_insertionSort _ _
    · rw [show refresh_data snapshot st'
          = sort_column (if st'.sort_reverse_lc then Col.lastCommit else Col.name)
              false { st' with all_repos := snapshot } from rfl, hd, ha, hs]
  | search s h ih =>
    obtain ⟨hperm, hsort, -⟩ := ih
    obtain ⟨ha, hc, hr, hs, hd⟩ := set_search_spec s _
    refine ⟨?_, ?_, ?_⟩
    · rw [ha]; exact hperm
    · rw [ha, hc, hr]; exact hsort
    · rw [hd, ha, hs]

/-! ### Claim C7 -/

/-- C7: before any user interaction the projection is sorted by the
last-activity timestamp, most recent first, and the stored default
directions are descending for `"Last Commit"` and ascending for
`"Name"` (`sort_reverse = {"Name": False, "Last Commit": True}`). -/
theorem initial_projection_most_recent_first (snapshot : List Repo) :
    (initState snapshot).sort_reverse_name = false ∧
    (initState snapshot).sort_reverse_lc = true ∧
    (initState snapshot).all_repos = pySort Col.lastCommit true snapshot ∧
    (initState snapshot).all_repos.Pairwise (fun a b => b.mtime ≤ a.mtime) ∧
    (initState snapshot).display
      = update_list ("") (pySort Col.lastCommit true snapshot) := by
  refine ⟨rfl, rfl, rfl, ?_, rfl⟩
  rw [show (initState snapshot).all_repos
      = pySort Col.lastCommit true snapshot from rfl]
  exact (List.sorted_insertionSort _ _).imp
    (fun hab => by simpa [sortRel, keyLe] using hab)

/-! ### Claim C8 -/

/-- The claim of C8 as stated: from every reachable state, selecting the
same sort key twice restores both that key's direction flag and the
displayed row order. -/
def ClaimC8 : Prop :=
  ∀ (snapshot : List Repo) (st : AppState) (col : Col), Reach snapshot st →
    getFlag (sort_column col true (sort_column col true st)) col
        = getFlag st col ∧
    (sort_column col true (sort_column col true st)).display = st.display

/-- Repository entries with distinct timestamps for the C8 counterexample. -/
def repoAlpha : Repo :=
  { name := "alpha", path := "/base/alpha", mtime := 2, time_ago := "2h ago" }

def repoBeta : Repo :=
  { name := "beta", path := "/base/beta", mtime := 1, time_ago := "3h ago" }

/-- C8 is false as stated: in the initial state for snapshot
`[repoAlpha, repoBeta]` the rows are displayed most-recent-first
(`alpha` before `beta`).  Clicking `"Last Commit"` re-sorts descending
(no visible change) and flips the stored flag; clicking it again sorts
ascending, displaying `beta` before `alpha`.  The flag round-trips but
the displayed row order does not. -/
theorem sort_toggle_roundtrip_counterexample : ¬ ClaimC8 := by
  intro h
  have h2 := (h [repoAlpha, repoBeta] (initState [repoAlpha, repoBeta])
    Col.lastCommit Reach.init).2
  exact absurd h2 (by decide)

/-- C8 amended: selecting the same sort key twice restores that key's
direction flag and leaves the other key's flag untouched, and the
resulting row order is the pre-toggle rows stably sorted by that key in
the direction opposite to the pre-toggle stored flag (which equals the
pre-toggle order exactly when that order was already so sorted, but not in
general); selecting a (different) key applies that key's currently stored
direction without resetting any other flag. -/
theorem sort_toggle_roundtrip (st : AppState) (col : Col) :
    getFlag (sort_column col true (sort_column col true st)) col
        = getFlag st col ∧
    getFlag (sort_column col true (sort_column col true st)) (otherCol col)
        = getFlag st (otherCol col) ∧
    (sort_column col true (sort_column col true st)).all_repos
        = pySort col (!(getFlag st col)) st.all_repos ∧
    (sort_column col true (sort_column col true st)).display
        = update_list st.search (pySort col (!(getFlag st col)) st.all_repos) ∧
    (sort_column col true st).all_repos
        = pySort col (getFlag st col) st.all_repos ∧
    getFlag (sort_column col true st) (otherCol col)
        = getFlag st (otherCol col) := by
  obtain ⟨ha1, -, -, hs1, -⟩ := sort_column_spec col true st
  obtain ⟨ha2, -, -, -, hd2⟩ := sort_column_spec col true (sort_column col true st)
  refine ⟨?_, ?_, ?_, ?_, ha1, getFlag_sort_column_other col st⟩
  · rw [getFlag_sort_column_self, getFlag_sort_column_self, Bool.not_not]
  · rw [getFlag_sort_column_other, getFlag_sort_column_other]
  · rw [ha2, getFlag_sort_column_self, ha1, pySort_pySort]
  · rw [hd2, getFlag_sort_column_self, ha1, pySort_pySort, hs1]

/-! ### Claim C9 -/

/-- The claim of C9 as stated: the displayed row order is a pure function
of the tuple (scan snapshot, search term, last sort key, last sort
direction) over all reachable states. -/
def ClaimC9 : Prop :=
  ∀ (snapshot : List Repo) (st₁ st₂ : AppState),
    Reach snapshot st₁ → Reach snapshot st₂ →
    st₁.search = st₂.search → st₁.lastCol = st₂.lastCol →
    st₁.lastRev = st₂.lastRev → st₁.display = st₂.display

/-- Entries with a timestamp tie for the C9 counterexample. -/
def repoTieA : Repo :=
  { name := "a", path := "/p/a", mtime := 1, time_ago := "x" }

def repoTieB : Repo :=
  { name := "b", path := "/p/b", mtime := 1, time_ago := "y" }

def repoFresh : Repo :=
  { name := "c", path := "/p/c", mtime := 2, time_ago := "z" }

def snapTies : List Repo := [repoTieA, repoTieB, repoFresh]

/-- Trace 1: click `"Last Commit"` twice from the initial state. -/
def stTrace1 : AppState :=
  sort_column Col.lastCommit true
    (sort_column Col.lastCommit true (initState snapTies))

/-- Trace 2: click `"Name"` twice, then `"Last Commit"` twice. -/
def stTrace2 : AppState :=
  sort_column Col.lastCommit true
    (sort_column Col.lastCommit true
      (sort_column Col.name true (sort_column Col.name true (initState snapTies))))

/-- C9 is false as stated: the two traces end with the same snapshot,
search term, last sort key (`"Last Commit"`), last direction (ascending),
and even the same stored direction flags, yet display the tied rows `a`
and `b` in different relative orders — the in-place stable sort makes the
tie order depend on the interleaved `"Name"` sorts, hidden state beyond
the claimed tuple. -/
theorem projection_not_pure_counterexample : ¬ ClaimC9 := by
  intro h
  have h12 := h snapTies stTrace1 stTrace2
    (Reach.click _ (Reach.click _ Reach.init))
    (Reach.click _ (Reach.click _ (Reach.click _ (Reach.click _ Reach.init))))
    (by decide) (by decide) (by decide)
  exact absurd h12 (by decide)

theorem clsb_length_le_one {col : Col} {l : List Repo} {x : Repo}
    (hk : l.Pairwise (fun a b =>
        pyLower a.name ≠ pyLower b.name ∧ a.mtime ≠ b.mtime)) :
    (l.filter (clsb col x)).length ≤ 1 := by
  rcases hfl : l.filter (clsb col x) with - | ⟨a, - | ⟨b, t2⟩⟩
  · simp
  · simp
  · exfalso
    have ha : a ∈ l.filter (clsb col x) := by
      rw [hfl]; exact List.mem_cons_self _ _
    have hb : b ∈ l.filter (clsb col x) := by
      rw [hfl]; exact List.mem_cons.mpr (Or.inr (List.mem_cons_self _ _))
    have hQ : pyLower a.name ≠ pyLower b.name ∧ a.mtime ≠ b.mtime := by
      have hpw := hk.filter (clsb col x)
      rw [hfl] at hpw
      exact List.rel_of_pairwise_cons hpw (List.mem_cons_self _ _)
    obtain ⟨hxa, hax⟩ := clsb_eq_true.mp (List.mem_filter.mp ha).2
    obtain ⟨hxb, hbx⟩ := clsb_eq_true.mp (List.mem_filter.mp hb).2
    have h1 : keyLe col a b := keyLe_trans hax hxb
    have h2 : keyLe col b a := keyLe_trans hbx hxa
    cases col with
    | name =>
      exact hQ.1 (String.ext (listLexLe_antisymm h1 h2))
    | lastCommit =>
      exact hQ.2 (le_antisymm h1 h2)

theorem eq_of_perm_length_le_one {l₁ l₂ : List Repo}
    (h : l₁.Perm l₂) (hl : l₂.length ≤ 1) : l₁ = l₂ := by
  cases l₂ with
  | nil => exact h.eq_nil
  | cons a t =>
    cases t with
    | nil => exact List.perm_singleton.mp h
    | cons b u => simp at hl

/-- C9 amended: over snapshots whose sort keys are duplicate-free
(pairwise-distinct lower-cased names and pairwise-distinct timestamps),
the displayed row order is a pure function of (scan snapshot, search term,
last sort key, last sort direction).  When tied keys exist, the order
additionally depends on the interleaved history of stable in-place sorts
(see the counterexample), so the restriction to duplicate-free keys is
necessary. -/
theorem projection_pure_of_distinct_keys (snapshot : List Repo)
    (hkeys : snapshot.Pairwise (fun a b =>
        pyLower a.name ≠ pyLower b.name ∧ a.mtime ≠ b.mtime))
    {st₁ st₂ : AppState} (h₁ : Reach snapshot st₁) (h₂ : Reach snapshot st₂)
    (hs : st₁.search = st₂.search) (hc : st₁.lastCol = st₂.lastCol)
    (hr : st₁.lastRev = st₂.lastRev) :
    st₁.display = st₂.display := by
  obtain ⟨hp₁, hw₁, hd₁⟩ := reach_invariant h₁
  obtain ⟨hp₂, hw₂, hd₂⟩ := reach_invariant h₂
  have hall : st₁.all_repos = st₂.all_repos := by
    apply eq_of_sorted_perm_filter (R := sortRel st₁.lastCol st₁.lastRev)
      (fun a b => total_of _ a b)
    · exact hp₁.trans hp₂.symm
    · exact hw₁
    · rw [hc, hr]; exact hw₂
    · intro x
      rw [cls_of_sortRel]
      have hlen := @clsb_length_le_one st₁.lastCol snapshot x hkeys
      rw [eq_of_perm_length_le_one (hp₁.filter (clsb st₁.lastCol x)) hlen,
          eq_of_perm_length_le_one (hp₂.filter (clsb st₁.lastCol x)) hlen]
  rw [hd₁, hd₂, hs, hall]

/-- Duplicate-free entries for the C9 witness. -/
def repoW1 : Repo :=
  { name := "w1", path := "/p/w1", mtime := 1, time_ago := "u" }

def repoW2 : Repo :=
  { name := "w2", path := "/p/w2", mtime := 2, time_ago := "v" }

def snapW : List Repo := [repoW1, repoW2]

theorem projection_pure_of_distinct_keys_witness :
    snapW.Pairwise (fun a b =>
        pyLower a.name ≠ pyLower b.name ∧ a.mtime ≠ b.mtime) ∧
    (initState snapW).search = (refresh_data snapW (initState snapW)).search ∧
    (initState snapW).lastCol = (refresh_data snapW (initState snapW)).lastCol ∧
    (initState snapW).lastRev = (refresh_data snapW (initState snapW)).lastRev ∧
    (initState snapW).display = (refresh_data snapW (initState snapW)).display := by
  refine ⟨?_, ?_, ?_, ?_, ?_⟩
  · decide
  · decide
  · decide
  · decide
  · exact projection_pure_of_distinct_keys snapW (by decide)
      Reach.init (Reach.refresh Reach.init) (by decide) (by decide) (by decide)

/-! ### Claim C10 -/

/-- C10: from every reachable state, launching the selected row at ordinal
position `i` of the most recently produced projection spawns exactly one
process whose argument vector is exactly `[editor_command, p]`, where `p`
is the path of the `i`-th row of that projection — the row's ordinal
position alone resolves the path.  (`subprocess.Popen` receives an
argument list with the default `shell=False`, so there is no shell
interpretation, and stdout/stderr are discarded.) -/
theorem open_repo_spawns_selected_path (editor : String) (snapshot : List Repo)
    {st : AppState} (h : Reach snapshot st) (i : Nat) :
    open_repo editor st i
      = (((st.all_repos.filter (fun r => matchesSearch st.search r)).map
            Repo.path)[i]?).map (fun p => { argv := [editor, p] }) := by
  obtain ⟨-, -, hd⟩ := reach_invariant h
  unfold open_repo
  rw [hd]
  cases hq : ((st.all_repos.filter (fun r => matchesSearch st.search r)).map
      Repo.path)[i]? with
  | none => simp [update_list, hq]
  | some p => simp [update_list, hq]

/-- A one-repository snapshot for the C10 witness. -/
def repoLaunch : Repo :=
  { name := "proj1", path := "/base/proj1", mtime := 5, time_ago := "1h ago" }

theorem open_repo_spawns_selected_path_witness :
    open_repo ("zed") (initState [repoLaunch]) 0
      = ((((initState [repoLaunch]).all_repos.filter
            (fun r => matchesSearch (initState [repoLaunch]).search r)).map
              Repo.path)[0]?).map (fun p => { argv := [("zed"), p] }) ∧
    open_repo ("zed") (initState [repoLaunch]) 0
      = some { argv := [("zed"), "/base/proj1"] } :=
  ⟨open_repo_spawns_selected_path ("zed") [repoLaunch] Reach.init 0, by decide⟩

end GitDashboard
